import Mathlib

/-!
The line shell of `cliTask`.

A shallow embedding of `cliTask` from `src/FreeRTOS/CLI/CLI_task.c`: the loop that
receives one character at a time from the UART, edits the static input buffer
`inputString[MAX_INPUT_LENGTH]`, and on a newline drives the FreeRTOS+CLI command
interpreter until it returns `pdFALSE`, writing the output buffer to the UART after each
invocation.

Conventions of the embedding.

* A `char` is its byte value, a `Nat`; the three characters the code tests for are
  `'\n' = 10`, `'\r' = 13` and `'\b' = 8`.
* A `char` array is a `List Nat`; a store is `List.set`.
* `inputIndex` is a `uint8_t`: its increment and decrement are taken modulo `256`.
* `FreeRTOS_CLIProcessCommand` and `configCOMMAND_INT_MAX_OUTPUT_SIZE` are declared in
  headers that are not part of the sources; they are parameters (`Interpreter`). The
  interpreter has private state of type `σ`, reads the command buffer (which it receives
  as a pointer to constant characters and cannot change), reads and writes the output
  buffer, and returns `moreDataToFollow` (`true` for any value other than `pdFALSE`).
* The `do … while` loop of the newline branch need not terminate, so it is run with fuel;
  the result is `none` when the fuel runs out.
* Every machine carries the trace of observable events of the loop (characters received,
  interpreter invocations, UART writes, stores into `inputString`) in program order.
-/

namespace CliTask

/-! ## Data model -/

/-- The capacity of the input buffer, `MAX_INPUT_LENGTH`, defined as `(50)`. -/
def MAX_INPUT_LENGTH : Nat := 50

/-- The editing state of `cliTask`: `static char inputString[MAX_INPUT_LENGTH]` and
`uint8_t inputIndex`. -/
structure Session where
  inputString : List Nat
  inputIndex : Nat
  deriving DecidableEq, Repr

/-- Observable events of the loop of `cliTask`, in program order. -/
inductive Event where
  /-- The call of `UART_read` delivered the character `c` in `rxedChar`. -/
  | recv (c : Nat)
  /-- An invocation `FreeRTOS_CLIProcessCommand(inputString, outputString, …)`; `cmd` is the
  content of `inputString` and `out` the content of `outputString` at the call. -/
  | call (cmd out : List Nat)
  /-- A call of `UART_write` for `trans.count` bytes starting at `trans.buf`. -/
  | uartWrite (bytes : List Nat)
  /-- The store `inputString[idx] = val`. -/
  | store (idx val : Nat)
  deriving DecidableEq, Repr

/-- The command interpreter, which lives outside `CLI_task.c`. -/
structure Interpreter (σ : Type) where
  /-- Size of the output buffer handed to the interpreter. -/
  configCOMMAND_INT_MAX_OUTPUT_SIZE : Nat
  /-- One invocation: from the private state, the command buffer, the output buffer and
  its size, to the new private state, the new output buffer and `moreDataToFollow`. -/
  FreeRTOS_CLIProcessCommand : σ → List Nat → List Nat → Nat → σ × List Nat × Bool

/-- Everything the loop of `cliTask` works on. -/
structure Machine (σ : Type) where
  session : Session
  /-- Content of the buffer returned by `FreeRTOS_CLIGetOutputBuffer()`. -/
  outputString : List Nat
  /-- Private state of the command interpreter. -/
  cli : σ
  trace : List Event

/-- The session at entry to the loop: `inputString = {0}`, `inputIndex = 0`. -/
def Session.init : Session :=
  ⟨List.replicate MAX_INPUT_LENGTH 0, 0⟩

/-- The machine at entry to the `while(1)` loop, with an empty trace. -/
def Machine.init {σ : Type} (cli : σ) (outputString : List Nat) : Machine σ :=
  ⟨Session.init, outputString, cli, []⟩

/-! ## C library helpers -/

/-- The function `strlen`: the number of bytes before the first NUL. -/
def strlen (s : List Nat) : Nat :=
  (s.takeWhile (fun b => b != 0)).length

/-- The bytes a `UART_write` with `buf = s` and `count = strlen(s)` sends. -/
def cString (s : List Nat) : List Nat :=
  s.take (strlen s)

/-- The NUL-terminated string read from an array: defined only when the array holds a
NUL, otherwise the read runs past the end of the array. -/
def lineText (buf : List Nat) : Option (List Nat) :=
  if 0 ∈ buf then some (cString buf) else none

/-- The call `memset(buf, v, n)`: the first `n` bytes of the array are set to `v`. -/
def memset (buf : List Nat) (v n : Nat) : List Nat :=
  List.replicate (min n buf.length) v ++ buf.drop n

/-- The stores a `memset(inputString, v, n)` performs. -/
def memsetEvents (v n : Nat) : List Event :=
  (List.range n).map (fun i => Event.store i v)

/-! ## The loop body -/

/-- The `do … while(moreDataToFollow != pdFALSE)` loop of the newline branch. -/
def dispatch {σ : Type} (I : Interpreter σ) (inputString : List Nat) :
    Nat → σ → List Nat → List Event → Option (σ × List Nat × List Event)
  | 0, _, _, _ => none
  | fuel + 1, cli, outputString, tr =>
    let r := I.FreeRTOS_CLIProcessCommand cli inputString outputString
      I.configCOMMAND_INT_MAX_OUTPUT_SIZE
    let tr1 := tr ++ [Event.call inputString outputString,
      Event.uartWrite (r.2.1.take (strlen r.2.1))]
    if r.2.2 then dispatch I inputString fuel r.1 r.2.1 tr1 else some (r.1, r.2.1, tr1)

/-- The `else` branch of the loop body: a character other than `'\n'` was received. -/
def editStep (s : Session) (rxedChar : Nat) : Session × List Event :=
  if rxedChar = 13 then
    (s, [])
  else if rxedChar = 8 then
    if s.inputIndex > 0 then
      let i := (s.inputIndex + 255) % 256
      (⟨s.inputString.set i 0, i⟩, [Event.store i 0])
    else
      (s, [])
  else
    if s.inputIndex < MAX_INPUT_LENGTH then
      (⟨s.inputString.set s.inputIndex rxedChar, (s.inputIndex + 1) % 256⟩,
        [Event.store s.inputIndex rxedChar])
    else
      (s, [])

/-- One iteration of the `while(1)` loop, for the received character `rxedChar`. -/
def cliStep {σ : Type} (I : Interpreter σ) (fuel : Nat) (m : Machine σ) (rxedChar : Nat) :
    Option (Machine σ) :=
  if rxedChar = 10 then
    match dispatch I m.session.inputString fuel m.cli m.outputString
        (m.trace ++ [Event.recv rxedChar]) with
    | none => none
    | some r =>
      some ⟨⟨memset m.session.inputString 0 MAX_INPUT_LENGTH, 0⟩, r.2.1, r.1,
        r.2.2 ++ memsetEvents 0 MAX_INPUT_LENGTH⟩
  else
    let e := editStep m.session rxedChar
    some ⟨e.1, m.outputString, m.cli, m.trace ++ Event.recv rxedChar :: e.2⟩

/-- The loop of `cliTask` run on the characters the UART delivers, in order. -/
def cliTask {σ : Type} (I : Interpreter σ) (fuel : Nat) : Machine σ → List Nat → Option (Machine σ)
  | m, [] => some m
  | m, c :: cs =>
    match cliStep I fuel m c with
    | none => none
    | some m1 => cliTask I fuel m1 cs

/-! ## Observations on traces -/

/-- The buffers written to the transport, in order. -/
def uartWrites (tr : List Event) : List (List Nat) :=
  tr.filterMap (fun e => match e with
    | Event.uartWrite b => some b
    | _ => none)

/-- The invocations of the interpreter, in order: command buffer and output buffer handed
to each. -/
def calls (tr : List Event) : List (List Nat × List Nat) :=
  tr.filterMap (fun e => match e with
    | Event.call c o => some (c, o)
    | _ => none)

/-- The stores into `inputString`, in order: index and value. -/
def stores (tr : List Event) : List (Nat × Nat) :=
  tr.filterMap (fun e => match e with
    | Event.store i v => some (i, v)
    | _ => none)

/-- The byte stream forwarded to the transport. -/
def sentBytes (tr : List Event) : List Nat :=
  (uartWrites tr).flatten

/-! ## Repeated invocation of the interpreter -/

/-- The private state and the output buffer after `k` successive invocations of the
interpreter on the command buffer `cmd`. -/
def afterCalls {σ : Type} (I : Interpreter σ) (cmd : List Nat) : Nat → σ → List Nat → σ × List Nat
  | 0, cli, out => (cli, out)
  | k + 1, cli, out =>
    let r := I.FreeRTOS_CLIProcessCommand cli cmd out I.configCOMMAND_INT_MAX_OUTPUT_SIZE
    afterCalls I cmd k r.1 r.2.1

/-- The interpreter returns `pdFALSE` for the first time on invocation number `n`
(counted from 1) when invoked repeatedly on `cmd`. -/
def returnsFalseAt {σ : Type} (I : Interpreter σ) (cmd : List Nat) : Nat → σ → List Nat → Bool
  | 0, _, _ => false
  | n + 1, cli, out =>
    let r := I.FreeRTOS_CLIProcessCommand cli cmd out I.configCOMMAND_INT_MAX_OUTPUT_SIZE
    if r.2.2 then returnsFalseAt I cmd n r.1 r.2.1 else n == 0

/-- The value of `moreDataToFollow` returned by invocation number `k + 1` when the
interpreter is invoked repeatedly on `cmd`. -/
def moreAfter {σ : Type} (I : Interpreter σ) (cmd : List Nat) (k : Nat) (cli : σ)
    (out : List Nat) : Bool :=
  (I.FreeRTOS_CLIProcessCommand (afterCalls I cmd k cli out).1 cmd (afterCalls I cmd k cli out).2
    I.configCOMMAND_INT_MAX_OUTPUT_SIZE).2.2

/-- The events of `n` successive passes through the body of the dispatch loop. -/
def invocationEvents {σ : Type} (I : Interpreter σ) (cmd : List Nat) :
    Nat → σ → List Nat → List Event
  | 0, _, _ => []
  | n + 1, cli, out =>
    let r := I.FreeRTOS_CLIProcessCommand cli cmd out I.configCOMMAND_INT_MAX_OUTPUT_SIZE
    Event.call cmd out :: Event.uartWrite (cString r.2.1) :: invocationEvents I cmd n r.1 r.2.1

/-- The machine after the newline branch has run on `m` with a dispatch loop of `n`
passes. -/
def dispatched {σ : Type} (I : Interpreter σ) (n : Nat) (m : Machine σ) : Machine σ :=
  ⟨⟨memset m.session.inputString 0 MAX_INPUT_LENGTH, 0⟩,
    (afterCalls I m.session.inputString n m.cli m.outputString).2,
    (afterCalls I m.session.inputString n m.cli m.outputString).1,
    m.trace ++ [Event.recv 10] ++
      invocationEvents I m.session.inputString n m.cli m.outputString ++
      memsetEvents 0 MAX_INPUT_LENGTH⟩

/-! ## Abstraction of the input buffer -/

/-- The array that holds the text `kept` followed by zero padding. -/
def bufferOf (kept : List Nat) : List Nat :=
  kept ++ List.replicate (MAX_INPUT_LENGTH - kept.length) 0

/-- The session that holds the text `kept`. -/
def sessionOf (kept : List Nat) : Session :=
  ⟨bufferOf kept, kept.length⟩

/-- What `editStep` does to the text held in the buffer. -/
def keepStep (kept : List Nat) (c : Nat) : List Nat :=
  if c = 13 then kept
  else if c = 8 then kept.dropLast
  else if kept.length < MAX_INPUT_LENGTH then kept ++ [c] else kept

/-- What one iteration of the loop does to the text held in the buffer. -/
def keepChar (kept : List Nat) (c : Nat) : List Nat :=
  if c = 10 then [] else keepStep kept c

/-! ## Reference definitions taken from the specification -/

/-- Standard line editing of one character, in the words of the specification: a `'\r'` is
dropped, a `'\b'` removes the most recently kept character if there is one, any other
character is kept. -/
def specKeep (kept : List Nat) (c : Nat) : List Nat :=
  if c = 13 then kept else if c = 8 then kept.dropLast else kept ++ [c]

/-- The characters typed minus every `'\r'` and minus the characters removed by `'\b'`. -/
def specEdit (cs : List Nat) : List Nat :=
  cs.foldl specKeep []

/-! ## The command processor of the specification

`FreeRTOS_CLI.c`, which holds the command registry and `FreeRTOS_CLIProcessCommand`, and
the files of the command handlers are not among the sources. Where a statement depends on
what the command processor does with a line, it is made for the processor described in
sections 4.1 and 4.2 of the specification. -/

/-- Modelled from the spec: a `CommandEntry` of the registry (section 3), whose handlers
live in files that are not among the sources. A handler maps its private continuation
state and the command-line text to the new state, the output text of this invocation and
the more-data flag. -/
structure CommandEntry (σ : Type) where
  name : List Nat
  help : List Nat
  handler : σ → List Nat → σ × List Nat × Bool

/-- Modelled from the spec: the tokens of a line, which are separated by single spaces
(section 6); the tokenizer is part of the absent `FreeRTOS_CLI.c`. -/
def tokens (line : List Nat) : List (List Nat) :=
  (line.splitOn 32).filter (fun t => !t.isEmpty)

/-- Modelled from the spec: `resolve` of the absent command registry (section 4.1), the
exact-match, case-sensitive lookup of a token among the registered names; of two entries
with one name the first registered is found. -/
def resolve {σ : Type} (registry : List (CommandEntry σ)) (firstToken : List Nat) :
    Option (CommandEntry σ) :=
  registry.find? (fun e => e.name == firstToken)

/-- Modelled from the spec: how the absent command processor stores an output text in the
output buffer, truncated to `cap - 1` bytes to leave room for the terminator
(section 4.2). -/
def writeOutput (out text : List Nat) (cap : Nat) : List Nat :=
  text.take (cap - 1) ++ 0 :: out.drop ((text.take (cap - 1)).length + 1)

/-- Modelled from the spec: the command processor `FreeRTOS_CLIProcessCommand` of the absent
`FreeRTOS_CLI.c` (section 4.2). An empty line (zero tokens) gives empty output and `false`;
a first token that resolves to no handler gives the fixed unknown-command message and
`false`; otherwise the handler of the first token is invoked on the command-line text.
The command-line text is the NUL-terminated string in `cmd`. When `cmd` holds no NUL the
read of the C code leaves the array and the specification says nothing about the result;
the value of this definition is then without meaning, and every statement about the
processor is made for a `cmd` with `lineText cmd = some line`. -/
def specProcessCommand {σ : Type} (registry : List (CommandEntry σ)) (unknownMessage : List Nat)
    (st : σ) (cmd out : List Nat) (cap : Nat) : σ × List Nat × Bool :=
  match tokens (cString cmd) with
  | [] => (st, writeOutput out [] cap, false)
  | t :: _ =>
    match resolve registry t with
    | none => (st, writeOutput out unknownMessage cap, false)
    | some e =>
      let r := e.handler st (cString cmd)
      (r.1, writeOutput out r.2.1 cap, r.2.2)

/-- Modelled from the spec: the interpreter built on the absent command processor, for a
registry, an unknown-command message and an output buffer size. -/
def specInterpreter {σ : Type} (registry : List (CommandEntry σ)) (unknownMessage : List Nat)
    (cap : Nat) : Interpreter σ :=
  ⟨cap, specProcessCommand registry unknownMessage⟩

/-! ## Interpreters used as concrete inputs -/

/-- An interpreter that writes nothing and returns `pdFALSE` at once. -/
def quietInterpreter : Interpreter Unit :=
  ⟨4, fun _ _ out _ => ((), out, false)⟩

/-- An interpreter that answers every line in three invocations: invocation `k + 1` writes
the one-letter chunk `'A' + k` and asks for another invocation while `k + 1 < 3`. -/
def countingInterpreter : Interpreter Nat :=
  ⟨4, fun k _ _ _ => (k + 1, [65 + k, 0, 0, 0], decide (k + 1 < 3))⟩

/-- An interpreter that writes `"hi"` on its first invocation and asks for another one, and
on every later invocation returns `pdFALSE` without touching the output buffer. -/
def stickyInterpreter : Interpreter Nat :=
  ⟨4, fun k _ out _ => if k = 0 then (1, [104, 105, 0, 0], true) else (k + 1, out, false)⟩

/-- The machine after the characters `a b BS c` with `quietInterpreter`. -/
def machineAc : Machine Unit :=
  ⟨sessionOf [97, 99], [0], (),
    [Event.recv 97, Event.store 0 97, Event.recv 98, Event.store 1 98, Event.recv 8,
      Event.store 1 0, Event.recv 99, Event.store 1 99]⟩

/-- The machine after the characters `a LF b` with `quietInterpreter`. -/
def machineB : Machine Unit :=
  ⟨sessionOf [98], [0], (),
    [Event.recv 97, Event.store 0 97, Event.recv 10, Event.call (bufferOf [97]) [0],
      Event.uartWrite []] ++ memsetEvents 0 MAX_INPUT_LENGTH ++
    [Event.recv 98, Event.store 0 98]⟩

/-- The machine after the characters `a BS` with the processor of the specification, an
empty registry and the unknown-command message `"?"`. -/
def machineEmptied : Machine Unit :=
  ⟨sessionOf [], [0, 0], (), [Event.recv 97, Event.store 0 97, Event.recv 8, Event.store 0 0]⟩

/-! ## Zero padding of the input buffer -/

/-- The session is a well-formed array of `MAX_INPUT_LENGTH` bytes with the index inside
it, and every byte of `inputString` at an index from `inputIndex` on is NUL. -/
def Padded (s : Session) : Prop :=
  s.inputString.length = MAX_INPUT_LENGTH ∧ s.inputIndex ≤ MAX_INPUT_LENGTH ∧
    ∀ j < MAX_INPUT_LENGTH, s.inputIndex ≤ j → s.inputString[j]? = some 0

instance decidablePadded : DecidablePred Padded := fun s => by
  unfold Padded
  exact inferInstance

/-! ## Concrete inputs for the command processor of the specification -/

/-- A registry with the single command `led`, whose handler answers `"on"` in one
invocation. -/
def ledRegistry : List (CommandEntry Unit) :=
  [⟨[108, 101, 100], [], fun st _ => (st, [111, 110], false)⟩]

/-- The machine after the characters `x y z` with the processor of the specification, the
registry `ledRegistry`, the unknown-command message `"??"` and an output buffer of four
bytes. -/
def machineXyz : Machine Unit :=
  ⟨sessionOf [120, 121, 122], [0, 0, 0, 0], (),
    [Event.recv 120, Event.store 0 120, Event.recv 121, Event.store 1 121, Event.recv 122,
      Event.store 2 122]⟩

theorem set_append_replicate_zero (k : List Nat) (x n : Nat) :
    (k ++ [x] ++ List.replicate n 0).set k.length 0 = k ++ List.replicate (n + 1) 0 := by
  induction k with
  | nil => simp [List.replicate_succ]
  | cons a k ih => simpa using ih

theorem set_replicate_zero_append (k : List Nat) (c n : Nat) :
    (k ++ List.replicate (n + 1) 0).set k.length c = k ++ [c] ++ List.replicate n 0 := by
  induction k with
  | nil => simp [List.replicate_succ]
  | cons a k ih => simpa using ih

theorem editStep_sessionOf (kept : List Nat) (c : Nat) (h : kept.length ≤ MAX_INPUT_LENGTH) :
    (editStep (sessionOf kept) c).1 = sessionOf (keepStep kept c) := by
  unfold editStep keepStep
  by_cases h13 : c = 13
  · simp [h13]
  by_cases h8 : c = 8
  · subst h8
    rcases List.eq_nil_or_concat kept with hk | ⟨k, x, hk⟩
    · subst hk; simp [sessionOf]
    · subst hk
      have hl : k.length + 1 ≤ MAX_INPUT_LENGTH := by simpa using h
      have hi : (k.length + 1 + 255) % 256 = k.length := by
        unfold MAX_INPUT_LENGTH at hl; omega
      have hn : MAX_INPUT_LENGTH - k.length = (MAX_INPUT_LENGTH - (k.length + 1)) + 1 := by omega
      simp [sessionOf, bufferOf, hi, hn, set_append_replicate_zero, List.replicate_succ]
  · by_cases hlt : kept.length < MAX_INPUT_LENGTH
    · have hi : (kept.length + 1) % 256 = kept.length + 1 := by
        unfold MAX_INPUT_LENGTH at hlt; omega
      have hn : MAX_INPUT_LENGTH - kept.length = (MAX_INPUT_LENGTH - (kept.length + 1)) + 1 := by
        omega
      simp only [h13, h8, if_false, sessionOf, bufferOf, hlt, if_true, hi, List.length_append,
        List.length_singleton]
      rw [hn, set_replicate_zero_append]
    · simp [h13, h8, sessionOf, hlt]

theorem editStep_stores (kept : List Nat) (c : Nat) (h : kept.length ≤ MAX_INPUT_LENGTH) :
    ∀ e ∈ (editStep (sessionOf kept) c).2, ∃ i v, e = Event.store i v ∧ i < MAX_INPUT_LENGTH := by
  intro e he
  unfold editStep at he
  have h50 : kept.length ≤ 50 := h
  split at he
  · simp at he
  · split at he
    · split at he
      · rename_i hpos
        simp only [List.mem_singleton] at he
        refine ⟨_, _, he, ?_⟩
        simp only [sessionOf, MAX_INPUT_LENGTH] at hpos ⊢
        omega
      · simp at he
    · split at he
      · rename_i hlt
        simp only [List.mem_singleton] at he
        exact ⟨_, _, he, hlt⟩
      · simp at he

theorem keepStep_length_le (kept : List Nat) (c : Nat) (h : kept.length ≤ MAX_INPUT_LENGTH) :
    (keepStep kept c).length ≤ MAX_INPUT_LENGTH := by
  unfold keepStep
  split
  · exact h
  · split
    · simp; omega
    · split
      · simp; omega
      · exact h

theorem keepChar_length_le (kept : List Nat) (c : Nat) (h : kept.length ≤ MAX_INPUT_LENGTH) :
    (keepChar kept c).length ≤ MAX_INPUT_LENGTH := by
  unfold keepChar
  split
  · simp
  · exact keepStep_length_le kept c h

theorem bufferOf_length (kept : List Nat) (h : kept.length ≤ MAX_INPUT_LENGTH) :
    (bufferOf kept).length = MAX_INPUT_LENGTH := by
  simp [bufferOf]; omega

theorem take_bufferOf (kept : List Nat) : (bufferOf kept).take kept.length = kept := by
  simp [bufferOf]

theorem memset_bufferOf (kept : List Nat) (h : kept.length ≤ MAX_INPUT_LENGTH) :
    memset (bufferOf kept) 0 MAX_INPUT_LENGTH = bufferOf [] := by
  have hl := bufferOf_length kept h
  unfold memset
  rw [List.drop_of_length_le (by omega), hl]
  simp [bufferOf]

/-! ### Observations on traces -/

theorem calls_append (a b : List Event) : calls (a ++ b) = calls a ++ calls b := by
  simp [calls, List.filterMap_append]

theorem uartWrites_append (a b : List Event) :
    uartWrites (a ++ b) = uartWrites a ++ uartWrites b := by
  simp [uartWrites, List.filterMap_append]

theorem stores_append (a b : List Event) : stores (a ++ b) = stores a ++ stores b := by
  simp [stores, List.filterMap_append]

theorem calls_memsetEvents (v n : Nat) : calls (memsetEvents v n) = [] := by
  simp [calls, memsetEvents, List.filterMap_map]

theorem uartWrites_memsetEvents (v n : Nat) : uartWrites (memsetEvents v n) = [] := by
  simp [uartWrites, memsetEvents, List.filterMap_map]

theorem stores_memsetEvents (v n : Nat) :
    stores (memsetEvents v n) = (List.range n).map (fun i => (i, v)) := by
  unfold stores memsetEvents
  induction List.range n with
  | nil => rfl
  | cons a l ih => simp only [List.map_cons, List.filterMap_cons, ih]

theorem stores_invocationEvents {σ : Type} (I : Interpreter σ) (cmd : List Nat) :
    ∀ (n : Nat) (cli : σ) (out : List Nat), stores (invocationEvents I cmd n cli out) = [] := by
  intro n
  induction n with
  | zero => intro cli out; rfl
  | succ n ih =>
    intro cli out
    simp only [invocationEvents, stores, List.filterMap_cons]
    exact ih _ _

theorem calls_invocationEvents {σ : Type} (I : Interpreter σ) (cmd : List Nat) :
    ∀ (n : Nat) (cli : σ) (out : List Nat),
      calls (invocationEvents I cmd n cli out) =
        (List.range n).map (fun k => (cmd, (afterCalls I cmd k cli out).2)) := by
  intro n
  induction n with
  | zero => intro cli out; rfl
  | succ n ih =>
    intro cli out
    rw [List.range_succ_eq_map]
    simp only [invocationEvents, calls, List.filterMap_cons, List.map_cons, List.map_map]
    congr 1
    exact ih _ _

theorem uartWrites_invocationEvents {σ : Type} (I : Interpreter σ) (cmd : List Nat) :
    ∀ (n : Nat) (cli : σ) (out : List Nat),
      uartWrites (invocationEvents I cmd n cli out) =
        (List.range n).map (fun k => cString (afterCalls I cmd (k + 1) cli out).2) := by
  intro n
  induction n with
  | zero => intro cli out; rfl
  | succ n ih =>
    intro cli out
    rw [List.range_succ_eq_map]
    simp only [invocationEvents, uartWrites, List.filterMap_cons, List.map_cons, List.map_map]
    congr 1
    exact ih _ _

/-! ### The dispatch loop -/

theorem dispatch_eq {σ : Type} (I : Interpreter σ) (cmd : List Nat) :
    ∀ (n fuel : Nat) (cli : σ) (out : List Nat) (tr : List Event),
      returnsFalseAt I cmd n cli out = true → n ≤ fuel →
      dispatch I cmd fuel cli out tr =
        some ((afterCalls I cmd n cli out).1, (afterCalls I cmd n cli out).2,
          tr ++ invocationEvents I cmd n cli out) := by
  intro n
  induction n with
  | zero => intro fuel cli out tr h; simp [returnsFalseAt] at h
  | succ n ih =>
    intro fuel cli out tr h hf
    obtain ⟨f, rfl⟩ : ∃ f, fuel = f + 1 := ⟨fuel - 1, by omega⟩
    simp only [returnsFalseAt] at h
    simp only [dispatch, afterCalls, invocationEvents]
    split at h
    · rename_i hmore
      rw [if_pos hmore, ih f _ _ _ h (by omega)]
      simp [cString]
    · rename_i hmore
      have hn : n = 0 := by simpa using h
      subst hn
      rw [if_neg hmore]
      simp [afterCalls, invocationEvents, cString]

theorem dispatch_some {σ : Type} (I : Interpreter σ) (cmd : List Nat) :
    ∀ (fuel : Nat) (cli : σ) (out : List Nat) (tr : List Event)
      (r : σ × List Nat × List Event), dispatch I cmd fuel cli out tr = some r →
      ∃ n, n ≤ fuel ∧ returnsFalseAt I cmd n cli out = true := by
  intro fuel
  induction fuel with
  | zero => intro cli out tr r h; simp [dispatch] at h
  | succ f ih =>
    intro cli out tr r h
    simp only [dispatch] at h
    split at h
    · rename_i hmore
      obtain ⟨n, hn, hr⟩ := ih _ _ _ _ h
      exact ⟨n + 1, by omega, by simp [returnsFalseAt, hmore, hr]⟩
    · rename_i hmore
      exact ⟨1, by omega, by simp [returnsFalseAt, hmore]⟩

theorem returnsFalseAt_iff {σ : Type} (I : Interpreter σ) (cmd : List Nat) :
    ∀ (n : Nat) (cli : σ) (out : List Nat),
      returnsFalseAt I cmd n cli out = true ↔
        (1 ≤ n ∧ (∀ k < n - 1, moreAfter I cmd k cli out = true) ∧
          moreAfter I cmd (n - 1) cli out = false) := by
  intro n
  induction n with
  | zero => intro cli out; simp [returnsFalseAt]
  | succ n ih =>
    intro cli out
    have hsucc : ∀ k, moreAfter I cmd (k + 1) cli out =
        moreAfter I cmd k
          (I.FreeRTOS_CLIProcessCommand cli cmd out I.configCOMMAND_INT_MAX_OUTPUT_SIZE).1
          (I.FreeRTOS_CLIProcessCommand cli cmd out I.configCOMMAND_INT_MAX_OUTPUT_SIZE).2.1 :=
      fun k => rfl
    have hzero : moreAfter I cmd 0 cli out =
        (I.FreeRTOS_CLIProcessCommand cli cmd out I.configCOMMAND_INT_MAX_OUTPUT_SIZE).2.2 := rfl
    simp only [returnsFalseAt, Nat.add_sub_cancel, Nat.le_add_left, true_and]
    split
    · rename_i hmore
      rw [ih]
      cases n with
      | zero => simp [hzero, hmore]
      | succ j =>
        simp only [Nat.add_sub_cancel, Nat.le_add_left, true_and, hsucc]
        constructor
        · rintro ⟨h1, h2⟩
          refine ⟨?_, h2⟩
          intro k hk
          cases k with
          | zero => rw [hzero]; exact hmore
          | succ i => rw [hsucc]; exact h1 i (by omega)
        · rintro ⟨h1, h2⟩
          refine ⟨?_, h2⟩
          intro k hk
          have := h1 (k + 1) (by omega)
          rwa [hsucc] at this
    · rename_i hmore
      cases n with
      | zero => simpa [hzero] using hmore
      | succ j =>
        simp only [Nat.add_one_ne_zero, beq_iff_eq, false_iff, not_and]
        intro h1
        have := h1 0 (by omega)
        rw [hzero] at this
        exact absurd this hmore

theorem cliStep_newline {σ : Type} (I : Interpreter σ) (fuel n : Nat) (m : Machine σ)
    (h : returnsFalseAt I m.session.inputString n m.cli m.outputString = true) (hf : n ≤ fuel) :
    cliStep I fuel m 10 = some (dispatched I n m) := by
  simp only [cliStep, if_true]
  rw [dispatch_eq I _ n fuel _ _ _ h hf]
  simp [dispatched]

theorem calls_dispatched {σ : Type} (I : Interpreter σ) (n : Nat) (m : Machine σ) :
    calls (dispatched I n m).trace = calls m.trace ++
      (List.range n).map
        (fun k => (m.session.inputString,
          (afterCalls I m.session.inputString k m.cli m.outputString).2)) := by
  have hr : calls [Event.recv 10] = [] := rfl
  simp only [dispatched, calls_append, calls_invocationEvents, calls_memsetEvents, hr,
    List.append_nil]

theorem uartWrites_dispatched {σ : Type} (I : Interpreter σ) (n : Nat) (m : Machine σ) :
    uartWrites (dispatched I n m).trace = uartWrites m.trace ++
      (List.range n).map
        (fun k => cString (afterCalls I m.session.inputString (k + 1) m.cli m.outputString).2) := by
  have hr : uartWrites [Event.recv 10] = [] := rfl
  simp only [dispatched, uartWrites_append, uartWrites_invocationEvents,
    uartWrites_memsetEvents, hr, List.append_nil]

theorem stores_dispatched {σ : Type} (I : Interpreter σ) (n : Nat) (m : Machine σ) :
    stores (dispatched I n m).trace = stores m.trace ++
      (List.range MAX_INPUT_LENGTH).map (fun i => (i, 0)) := by
  have hr : stores [Event.recv 10] = [] := rfl
  simp only [dispatched, stores_append, stores_invocationEvents, stores_memsetEvents, hr,
    List.append_nil]

theorem cliStep_newline_some {σ : Type} (I : Interpreter σ) (fuel : Nat) (m m1 : Machine σ)
    (h : cliStep I fuel m 10 = some m1) :
    ∃ n, n ≤ fuel ∧ returnsFalseAt I m.session.inputString n m.cli m.outputString = true := by
  simp only [cliStep, if_true] at h
  split at h
  · simp at h
  · rename_i r hr
    exact dispatch_some I _ _ _ _ _ _ hr

theorem cliStep_edit {σ : Type} (I : Interpreter σ) (fuel : Nat) (m : Machine σ) (c : Nat)
    (hc : c ≠ 10) :
    cliStep I fuel m c =
      some ⟨(editStep m.session c).1, m.outputString, m.cli,
        m.trace ++ Event.recv c :: (editStep m.session c).2⟩ := by
  simp [cliStep, hc]

/-! ### Runs of the loop -/

theorem sessionOf_nil : sessionOf [] = Session.init := by
  simp [sessionOf, bufferOf, Session.init]

theorem cliStep_session {σ : Type} (I : Interpreter σ) (fuel : Nat) (m m1 : Machine σ) (c : Nat)
    (kept : List Nat) (hs : m.session = sessionOf kept) (hk : kept.length ≤ MAX_INPUT_LENGTH)
    (h : cliStep I fuel m c = some m1) : m1.session = sessionOf (keepChar kept c) := by
  by_cases hc : c = 10
  · subst hc
    obtain ⟨n, hn, hr⟩ := cliStep_newline_some I fuel m m1 h
    rw [cliStep_newline I fuel n m hr hn] at h
    injection h with h
    subst h
    simp only [dispatched, keepChar, if_true, hs, sessionOf, List.length_nil]
    congr 1
    exact memset_bufferOf kept hk
  · rw [cliStep_edit I fuel m c hc] at h
    injection h with h
    subst h
    simp only [keepChar, hc, if_false, hs]
    exact editStep_sessionOf kept c hk

theorem cliStep_stores {σ : Type} (I : Interpreter σ) (fuel : Nat) (m m1 : Machine σ) (c : Nat)
    (kept : List Nat) (hs : m.session = sessionOf kept) (hk : kept.length ≤ MAX_INPUT_LENGTH)
    (hst : ∀ p ∈ stores m.trace, p.1 < MAX_INPUT_LENGTH)
    (h : cliStep I fuel m c = some m1) : ∀ p ∈ stores m1.trace, p.1 < MAX_INPUT_LENGTH := by
  by_cases hc : c = 10
  · subst hc
    obtain ⟨n, hn, hr⟩ := cliStep_newline_some I fuel m m1 h
    rw [cliStep_newline I fuel n m hr hn] at h
    injection h with h
    subst h
    intro p hp
    simp only [stores_dispatched, List.mem_append, List.mem_map, List.mem_range] at hp
    rcases hp with hp | ⟨i, hi, rfl⟩
    · exact hst p hp
    · exact hi
  · rw [cliStep_edit I fuel m c hc] at h
    injection h with h
    subst h
    intro p hp
    have hcons : ∀ (l : List Event), Event.recv c :: l = [Event.recv c] ++ l := fun _ => rfl
    rw [hcons, stores_append, stores_append] at hp
    simp only [List.mem_append] at hp
    rcases hp with hp | hp | hp
    · exact hst p hp
    · simp [stores] at hp
    · simp only [stores, List.mem_filterMap] at hp
      obtain ⟨e, he, hep⟩ := hp
      rw [hs] at he
      obtain ⟨i, v, rfl, hi⟩ := editStep_stores kept c hk e he
      simp only [Option.some.injEq] at hep
      subst hep
      exact hi

theorem foldl_keepChar_length_le (cs : List Nat) :
    ∀ (kept : List Nat), kept.length ≤ MAX_INPUT_LENGTH →
      (cs.foldl keepChar kept).length ≤ MAX_INPUT_LENGTH := by
  induction cs with
  | nil => intro kept h; exact h
  | cons c cs ih => intro kept h; exact ih _ (keepChar_length_le kept c h)

theorem cliTask_session {σ : Type} (I : Interpreter σ) (fuel : Nat) (cs : List Nat) :
    ∀ (m m1 : Machine σ) (kept : List Nat), m.session = sessionOf kept →
      kept.length ≤ MAX_INPUT_LENGTH → cliTask I fuel m cs = some m1 →
      m1.session = sessionOf (cs.foldl keepChar kept) := by
  induction cs with
  | nil =>
    intro m m1 kept hs _ h
    simp only [cliTask, Option.some.injEq] at h
    subst h
    exact hs
  | cons c cs ih =>
    intro m m1 kept hs hk h
    simp only [cliTask] at h
    split at h
    · simp at h
    · rename_i m2 h2
      exact ih m2 m1 _ (cliStep_session I fuel m m2 c kept hs hk h2)
        (keepChar_length_le kept c hk) h

theorem cliTask_stores {σ : Type} (I : Interpreter σ) (fuel : Nat) (cs : List Nat) :
    ∀ (m m1 : Machine σ) (kept : List Nat), m.session = sessionOf kept →
      kept.length ≤ MAX_INPUT_LENGTH → (∀ p ∈ stores m.trace, p.1 < MAX_INPUT_LENGTH) →
      cliTask I fuel m cs = some m1 → ∀ p ∈ stores m1.trace, p.1 < MAX_INPUT_LENGTH := by
  induction cs with
  | nil =>
    intro m m1 kept _ _ hst h
    simp only [cliTask, Option.some.injEq] at h
    subst h
    exact hst
  | cons c cs ih =>
    intro m m1 kept hs hk hst h
    simp only [cliTask] at h
    split at h
    · simp at h
    · rename_i m2 h2
      exact ih m2 m1 _ (cliStep_session I fuel m m2 c kept hs hk h2)
        (keepChar_length_le kept c hk) (cliStep_stores I fuel m m2 c kept hs hk hst h2) h

theorem cliTask_edit {σ : Type} (I : Interpreter σ) (fuel : Nat) (cs : List Nat) :
    ∀ (m : Machine σ), 10 ∉ cs →
      ∃ m1, cliTask I fuel m cs = some m1 ∧ m1.outputString = m.outputString ∧
        m1.cli = m.cli ∧ calls m1.trace = calls m.trace ∧
        uartWrites m1.trace = uartWrites m.trace := by
  induction cs with
  | nil => intro m _; exact ⟨m, rfl, rfl, rfl, rfl, rfl⟩
  | cons c cs ih =>
    intro m h
    have hc : c ≠ 10 := fun hc => h (by simp [hc])
    have hcs : 10 ∉ cs := fun hcs => h (by simp [hcs])
    obtain ⟨m1, h1, ho, hcli, hcalls, hw⟩ := ih
      ⟨(editStep m.session c).1, m.outputString, m.cli,
        m.trace ++ Event.recv c :: (editStep m.session c).2⟩ hcs
    refine ⟨m1, ?_, ho, hcli, ?_, ?_⟩
    · simp only [cliTask, cliStep_edit I fuel m c hc]
      exact h1
    · rw [hcalls]
      have hcons : ∀ (l : List Event), Event.recv c :: l = [Event.recv c] ++ l := fun _ => rfl
      rw [hcons, calls_append, calls_append]
      have he : calls (editStep m.session c).2 = [] := by
        unfold editStep; split_ifs <;> rfl
      have hr : calls [Event.recv c] = [] := rfl
      rw [he, hr]
      simp
    · rw [hw]
      have hcons : ∀ (l : List Event), Event.recv c :: l = [Event.recv c] ++ l := fun _ => rfl
      rw [hcons, uartWrites_append, uartWrites_append]
      have he : uartWrites (editStep m.session c).2 = [] := by
        unfold editStep; split_ifs <;> rfl
      have hr : uartWrites [Event.recv c] = [] := rfl
      rw [he, hr]
      simp

theorem cliTask_append {σ : Type} (I : Interpreter σ) (fuel : Nat) (cs ds : List Nat) :
    ∀ (m : Machine σ), cliTask I fuel m (cs ++ ds) =
      (cliTask I fuel m cs).bind (fun m1 => cliTask I fuel m1 ds) := by
  induction cs with
  | nil => intro m; rfl
  | cons c cs ih =>
    intro m
    simp only [List.cons_append, cliTask]
    cases cliStep I fuel m c with
    | none => rfl
    | some m2 => exact ih m2

theorem foldl_keepChar_eq_keepStep (cs : List Nat) :
    ∀ (kept : List Nat), 10 ∉ cs → cs.foldl keepChar kept = cs.foldl keepStep kept := by
  induction cs with
  | nil => intro kept _; rfl
  | cons c cs ih =>
    intro kept h
    have hc : c ≠ 10 := fun hc => h (by simp [hc])
    have hcs : 10 ∉ cs := fun hcs => h (by simp [hcs])
    simp only [List.foldl_cons, keepChar, hc, if_false]
    exact ih _ hcs

theorem keepStep_length_le_succ (kept : List Nat) (c : Nat) :
    (keepStep kept c).length ≤ kept.length + 1 := by
  unfold keepStep
  split_ifs <;> (simp; try omega)

theorem foldl_keepStep_eq_specKeep (cs : List Nat) :
    ∀ (kept : List Nat), kept.length + cs.length ≤ MAX_INPUT_LENGTH →
      cs.foldl keepStep kept = cs.foldl specKeep kept := by
  induction cs with
  | nil => intro kept _; rfl
  | cons c cs ih =>
    intro kept h
    simp only [List.length_cons] at h
    have hlt : kept.length < MAX_INPUT_LENGTH := by omega
    have hstep : keepStep kept c = specKeep kept c := by
      simp [keepStep, specKeep, hlt]
    simp only [List.foldl_cons]
    rw [← hstep]
    have := keepStep_length_le_succ kept c
    exact ih _ (by omega)

/-! ### C1 -/

/-- C1: for every sequence of received characters that contains no newline and is at most
`MAX_INPUT_LENGTH` long, the loop started from the initial session ends in a state whose
first `inputIndex` bytes of `inputString` are the characters typed minus every carriage
return and minus the characters removed by backspaces. -/
theorem C1_buffer_is_edited_text {σ : Type} (I : Interpreter σ) (fuel : Nat) (cli : σ)
    (out cs : List Nat) (hnl : 10 ∉ cs) (hlen : cs.length ≤ MAX_INPUT_LENGTH) :
    ∃ m, cliTask I fuel (Machine.init cli out) cs = some m ∧
      m.session.inputString.take m.session.inputIndex = specEdit cs := by
  obtain ⟨m, hm, -⟩ := cliTask_edit I fuel cs (Machine.init cli out) hnl
  refine ⟨m, hm, ?_⟩
  have hs := cliTask_session I fuel cs (Machine.init cli out) m [] sessionOf_nil.symm
    (by simp) hm
  rw [hs, foldl_keepChar_eq_keepStep cs [] hnl,
    foldl_keepStep_eq_specKeep cs [] (by simpa using hlen)]
  exact take_bufferOf _

/-- Witness of C1 on the input `a b BS c CR`. -/
theorem C1_buffer_is_edited_text_witness :
    10 ∉ [97, 98, 8, 99, 13] ∧ [97, 98, 8, 99, 13].length ≤ MAX_INPUT_LENGTH ∧
      ∃ m, cliTask quietInterpreter 0 (Machine.init () [0]) [97, 98, 8, 99, 13] = some m ∧
        m.session.inputString.take m.session.inputIndex = specEdit [97, 98, 8, 99, 13] :=
  ⟨by decide, by decide,
    C1_buffer_is_edited_text quietInterpreter 0 () [0] [97, 98, 8, 99, 13] (by decide)
      (by decide)⟩

/-! ### Strings in the input buffer -/

theorem cString_append_zero (k rest : List Nat) (h : 0 ∉ k) : cString (k ++ 0 :: rest) = k := by
  have hp : ∀ a ∈ k, (fun b : Nat => b != 0) a = true := by
    intro a ha
    have : a ≠ 0 := fun h0 => h (h0 ▸ ha)
    simpa using this
  have htw : (k ++ 0 :: rest).takeWhile (fun b : Nat => b != 0) = k := by
    rw [List.takeWhile_append_of_pos hp]
    simp
  simp [cString, strlen, htw]

theorem lineText_bufferOf (kept : List Nat) (h0 : 0 ∉ kept)
    (hlt : kept.length < MAX_INPUT_LENGTH) : lineText (bufferOf kept) = some kept := by
  obtain ⟨k, hk⟩ : ∃ k, MAX_INPUT_LENGTH - kept.length = k + 1 :=
    ⟨MAX_INPUT_LENGTH - kept.length - 1, by omega⟩
  have hb : bufferOf kept = kept ++ 0 :: List.replicate k 0 := by
    simp [bufferOf, hk, List.replicate_succ]
  rw [hb]
  simp [lineText, cString_append_zero kept _ h0]

theorem invocationEvents_mem {σ : Type} (I : Interpreter σ) (cmd : List Nat) :
    ∀ (n : Nat) (cli : σ) (out : List Nat), ∀ e ∈ invocationEvents I cmd n cli out,
      (∃ o, e = Event.call cmd o) ∨ (∃ b, e = Event.uartWrite b) := by
  intro n
  induction n with
  | zero => intro cli out e he; simp [invocationEvents] at he
  | succ n ih =>
    intro cli out e he
    simp only [invocationEvents, List.mem_cons] at he
    rcases he with rfl | rfl | he
    · exact Or.inl ⟨_, rfl⟩
    · exact Or.inr ⟨_, rfl⟩
    · exact ih _ _ e he

theorem returnsFalseAt_pos {σ : Type} (I : Interpreter σ) (cmd : List Nat) (n : Nat) (cli : σ)
    (out : List Nat) (h : returnsFalseAt I cmd n cli out = true) : 1 ≤ n := by
  cases n with
  | zero => simp [returnsFalseAt] at h
  | succ n => omega

theorem reachable_session {σ : Type} (I : Interpreter σ) (fuel : Nat) (cli : σ)
    (out cs : List Nat) (m : Machine σ) (hm : cliTask I fuel (Machine.init cli out) cs = some m) :
    ∃ kept, kept.length ≤ MAX_INPUT_LENGTH ∧ m.session = sessionOf kept :=
  ⟨cs.foldl keepChar [], foldl_keepChar_length_le cs [] (by simp),
    cliTask_session I fuel cs (Machine.init cli out) m [] sessionOf_nil.symm (by simp) hm⟩

/-! ### C2 -/

/-- C2 as stated fails: after the characters `a b NUL c d` the edited buffer holds the five
bytes `a b NUL c d`, but the NUL-terminated string the command processor reads from
`inputString` on the following newline is `"ab"`. -/
theorem C2_nul_byte_cuts_line :
    (cliTask quietInterpreter 1 (Machine.init () [0]) [97, 98, 0, 99, 100]).map
        (fun m => m.session.inputString.take m.session.inputIndex) = some [97, 98, 0, 99, 100] ∧
      (cliTask quietInterpreter 1 (Machine.init () [0]) [97, 98, 0, 99, 100, 10]).map
        (fun m => (calls m.trace).map (fun c => lineText c.1)) = some [some [97, 98]] := by
  decide

/-- C2, amended: for every sequence of received characters without newline that leaves
fewer than `MAX_INPUT_LENGTH` characters in the buffer, none of them NUL, followed by one
newline, with an interpreter that returns `pdFALSE` on its `n`-th invocation, the line is
dispatched in `n` invocations and the command-line text read from the buffer handed to
each of them is the edited buffer content at the moment the newline arrives. -/
theorem C2_line_text_is_buffer {σ : Type} (I : Interpreter σ) (fuel n : Nat) (cli : σ)
    (out cs : List Nat) (m : Machine σ) (hnl : 10 ∉ cs)
    (hm : cliTask I fuel (Machine.init cli out) cs = some m)
    (hnul : 0 ∉ m.session.inputString.take m.session.inputIndex)
    (hlt : m.session.inputIndex < MAX_INPUT_LENGTH)
    (hn : returnsFalseAt I m.session.inputString n m.cli m.outputString = true)
    (hf : n ≤ fuel) :
    ∃ m1, cliTask I fuel (Machine.init cli out) (cs ++ [10]) = some m1 ∧
      (calls m1.trace).length = n ∧ 1 ≤ n ∧
      ∀ c ∈ calls m1.trace,
        lineText c.1 = some (m.session.inputString.take m.session.inputIndex) := by
  obtain ⟨kept, hk, hs⟩ := reachable_session I fuel cli out cs m hm
  obtain ⟨m0, hm0, -, -, hcalls, -⟩ := cliTask_edit I fuel cs (Machine.init cli out) hnl
  rw [hm] at hm0
  injection hm0 with hm0
  subst hm0
  have htake : m.session.inputString.take m.session.inputIndex = kept := by
    rw [hs]; exact take_bufferOf kept
  rw [htake] at hnul ⊢
  have hlt2 : kept.length < MAX_INPUT_LENGTH := by rw [hs] at hlt; exact hlt
  have hline : lineText m.session.inputString = some kept := by
    rw [hs]; exact lineText_bufferOf kept hnul hlt2
  have hstep := cliStep_newline I fuel n m hn hf
  have hinit : calls (Machine.init cli out).trace = [] := rfl
  refine ⟨dispatched I n m, ?_, ?_, returnsFalseAt_pos I _ n _ _ hn, ?_⟩
  · rw [cliTask_append, hm]
    simp only [Option.bind, cliTask, hstep]
  · simp [calls_dispatched, hcalls, hinit]
  · intro c hc
    simp only [calls_dispatched, hcalls, hinit, List.nil_append, List.mem_map,
      List.mem_range] at hc
    obtain ⟨k, -, rfl⟩ := hc
    exact hline

/-- Witness of C2, amended: the input `a b BS c LF` leaves the buffer `"ac"` before
dispatch and is dispatched as the line `"ac"`. -/
theorem C2_line_text_is_buffer_witness :
    10 ∉ [97, 98, 8, 99] ∧
      cliTask quietInterpreter 1 (Machine.init () [0]) [97, 98, 8, 99] = some machineAc ∧
      machineAc.session.inputString.take machineAc.session.inputIndex = [97, 99] ∧
      ∃ m1, cliTask quietInterpreter 1 (Machine.init () [0]) ([97, 98, 8, 99] ++ [10]) = some m1 ∧
        (calls m1.trace).length = 1 ∧ 1 ≤ 1 ∧
        ∀ c ∈ calls m1.trace,
          lineText c.1 = some (machineAc.session.inputString.take machineAc.session.inputIndex) :=
  ⟨by decide, by rfl, by decide,
    C2_line_text_is_buffer quietInterpreter 1 1 () [0] [97, 98, 8, 99] machineAc (by decide)
      (by rfl) (by decide) (by decide) (by decide) (by decide)⟩

/-! ### C3 -/

/-- C3: when a newline is received and the interpreter returns `pdFALSE` on its `n`-th
invocation (`n` at least one) and not on an earlier one, the newline branch completes
(with any fuel of at least `n`), it makes exactly `n` invocations and `n` transport
writes, the buffers written are exactly the chunks of the `n` invocations in call order,
and the loop stops right after invocation `n`. -/
theorem C3_dispatch_until_pdFALSE {σ : Type} (I : Interpreter σ) (fuel n : Nat) (m : Machine σ)
    (hpos : 1 ≤ n)
    (hmore : ∀ k < n - 1, moreAfter I m.session.inputString k m.cli m.outputString = true)
    (hlast : moreAfter I m.session.inputString (n - 1) m.cli m.outputString = false)
    (hf : n ≤ fuel) :
    ∃ m1, cliStep I fuel m 10 = some m1 ∧
      (calls m1.trace).length = (calls m.trace).length + n ∧
      (uartWrites m1.trace).length = (uartWrites m.trace).length + n ∧
      uartWrites m1.trace = uartWrites m.trace ++ (List.range n).map (fun k =>
        cString (afterCalls I m.session.inputString (k + 1) m.cli m.outputString).2) ∧
      (m1.cli, m1.outputString) = afterCalls I m.session.inputString n m.cli m.outputString := by
  have hn := (returnsFalseAt_iff I m.session.inputString n m.cli m.outputString).mpr
    ⟨hpos, hmore, hlast⟩
  refine ⟨dispatched I n m, cliStep_newline I fuel n m hn hf, ?_, ?_,
    uartWrites_dispatched I n m, rfl⟩
  · simp [calls_dispatched]
  · simp [uartWrites_dispatched]

/-- Witness of C3: an interpreter that needs three invocations, on an empty line. -/
theorem C3_dispatch_until_pdFALSE_witness :
    1 ≤ 3 ∧
      (∀ k < 3 - 1, moreAfter countingInterpreter (Machine.init 0 [0, 0, 0, 0]).session.inputString
        k (Machine.init 0 [0, 0, 0, 0]).cli (Machine.init 0 [0, 0, 0, 0]).outputString = true) ∧
      moreAfter countingInterpreter (Machine.init 0 [0, 0, 0, 0]).session.inputString (3 - 1)
        (Machine.init 0 [0, 0, 0, 0]).cli (Machine.init 0 [0, 0, 0, 0]).outputString = false ∧
      3 ≤ 5 ∧
      ∃ m1, cliStep countingInterpreter 5 (Machine.init 0 [0, 0, 0, 0]) 10 = some m1 ∧
        (calls m1.trace).length = (calls (Machine.init 0 [0, 0, 0, 0]).trace).length + 3 ∧
        (uartWrites m1.trace).length =
          (uartWrites (Machine.init 0 [0, 0, 0, 0]).trace).length + 3 ∧
        uartWrites m1.trace = uartWrites (Machine.init 0 [0, 0, 0, 0]).trace ++
          (List.range 3).map (fun k =>
            cString (afterCalls countingInterpreter
              (Machine.init 0 [0, 0, 0, 0]).session.inputString (k + 1)
              (Machine.init 0 [0, 0, 0, 0]).cli (Machine.init 0 [0, 0, 0, 0]).outputString).2) ∧
        (m1.cli, m1.outputString) = afterCalls countingInterpreter
          (Machine.init 0 [0, 0, 0, 0]).session.inputString 3
          (Machine.init 0 [0, 0, 0, 0]).cli (Machine.init 0 [0, 0, 0, 0]).outputString :=
  ⟨by decide, by decide, by decide, by decide,
    C3_dispatch_until_pdFALSE countingInterpreter 5 3 (Machine.init 0 [0, 0, 0, 0]) (by decide)
      (by decide) (by decide) (by decide)⟩

/-! ### C4 -/

set_option maxRecDepth 100000 in
/-- C4 at its failing input: after fifty characters `a` the index is `MAX_INPUT_LENGTH`,
`inputString` holds fifty bytes `a` and no NUL, and on the following newline the command
processor is handed that array, from which no NUL-terminated string can be read without
leaving the array. -/
theorem C4_full_buffer_unterminated :
    (cliTask quietInterpreter 1 (Machine.init () [0]) (List.replicate 50 97)).map
        (fun m => (m.session.inputIndex, m.session.inputString,
          decide (0 ∈ m.session.inputString))) =
        some (50, List.replicate 50 97, false) ∧
      (cliTask quietInterpreter 1 (Machine.init () [0]) (List.replicate 50 97 ++ [10])).map
        (fun m => (calls m.trace).map (fun c => (c.1, lineText c.1))) =
        some [(List.replicate 50 97, none)] := by
  decide

/-! ### C5 -/

/-- C5: in every state reached from the initial session by any sequence of received
characters, `inputIndex` is at most `MAX_INPUT_LENGTH` (so below `256`, the increment and
decrement modulo `256` never wrap), `inputString` is still `MAX_INPUT_LENGTH` bytes long,
and every store into `inputString` made on the way was at an index below
`MAX_INPUT_LENGTH`. -/
theorem C5_index_bounded {σ : Type} (I : Interpreter σ) (fuel : Nat) (cli : σ)
    (out cs : List Nat) (m : Machine σ)
    (hm : cliTask I fuel (Machine.init cli out) cs = some m) :
    m.session.inputIndex ≤ MAX_INPUT_LENGTH ∧ m.session.inputIndex < 256 ∧
      m.session.inputString.length = MAX_INPUT_LENGTH ∧
      ∀ p ∈ stores m.trace, p.1 < MAX_INPUT_LENGTH := by
  obtain ⟨kept, hk, hs⟩ := reachable_session I fuel cli out cs m hm
  have hst := cliTask_stores I fuel cs (Machine.init cli out) m [] sessionOf_nil.symm
    (by simp) (by intro p hp; simp [Machine.init, stores] at hp) hm
  have hk50 : kept.length ≤ 50 := hk
  refine ⟨?_, ?_, ?_, hst⟩
  · rw [hs]; exact hk
  · rw [hs]; show kept.length < 256; omega
  · rw [hs]; exact bufferOf_length kept hk

set_option maxRecDepth 100000 in
/-- Witness of C5: the state after the characters `a LF b`. -/
theorem C5_index_bounded_witness :
    cliTask quietInterpreter 1 (Machine.init () [0]) [97, 10, 98] = some machineB ∧
      machineB.session.inputIndex ≤ MAX_INPUT_LENGTH ∧ machineB.session.inputIndex < 256 ∧
      machineB.session.inputString.length = MAX_INPUT_LENGTH ∧
      ∀ p ∈ stores machineB.trace, p.1 < MAX_INPUT_LENGTH :=
  ⟨by rfl, C5_index_bounded quietInterpreter 1 () [0] [97, 10, 98] machineB (by rfl)⟩

/-! ### C6 -/

theorem foldl_keepStep_plain (cs : List Nat) :
    ∀ (kept : List Nat), kept.length ≤ MAX_INPUT_LENGTH →
      (∀ c ∈ cs, c ≠ 10 ∧ c ≠ 13 ∧ c ≠ 8) →
      cs.foldl keepStep kept = (kept ++ cs).take MAX_INPUT_LENGTH := by
  induction cs with
  | nil =>
    intro kept hk _
    simp [List.take_of_length_le hk]
  | cons c cs ih =>
    intro kept hk hc
    have hc1 := hc c (by simp)
    have hcs : ∀ d ∈ cs, d ≠ 10 ∧ d ≠ 13 ∧ d ≠ 8 := fun d hd => hc d (by simp [hd])
    simp only [List.foldl_cons]
    by_cases hlt : kept.length < MAX_INPUT_LENGTH
    · have hstep : keepStep kept c = kept ++ [c] := by
        simp [keepStep, hc1.2.1, hc1.2.2, hlt]
      rw [hstep, ih (kept ++ [c]) (by simp; omega) hcs]
      simp
    · have hstep : keepStep kept c = kept := by
        simp [keepStep, hc1.2.1, hc1.2.2, hlt]
      have hfull : kept.length = MAX_INPUT_LENGTH := by omega
      rw [hstep, ih kept hk hcs, List.take_append_of_le_length (by omega),
        List.take_append_of_le_length (by omega)]

theorem plain_run {σ : Type} (I : Interpreter σ) (fuel : Nat) (cli : σ) (out cs : List Nat)
    (hc : ∀ c ∈ cs, c ≠ 10 ∧ c ≠ 13 ∧ c ≠ 8) :
    ∃ m, cliTask I fuel (Machine.init cli out) cs = some m ∧
      m.session = sessionOf (cs.take MAX_INPUT_LENGTH) ∧
      calls m.trace = [] ∧ uartWrites m.trace = [] := by
  have hnl : 10 ∉ cs := fun h => (hc 10 h).1 rfl
  obtain ⟨m, hm, -, -, hcalls, hw⟩ := cliTask_edit I fuel cs (Machine.init cli out) hnl
  refine ⟨m, hm, ?_, hcalls, hw⟩
  have hs := cliTask_session I fuel cs (Machine.init cli out) m [] sessionOf_nil.symm
    (by simp) hm
  rw [hs, foldl_keepChar_eq_keepStep cs [] hnl, foldl_keepStep_plain cs [] (by simp) hc]
  simp

theorem sessionOf_full (kept : List Nat) (h : kept.length = MAX_INPUT_LENGTH) :
    sessionOf kept = ⟨kept, MAX_INPUT_LENGTH⟩ := by
  simp [sessionOf, bufferOf, h]

/-- C6: for every sequence of more than `MAX_INPUT_LENGTH` characters, none of them a
newline, carriage return or backspace, fed from the initial session, the loop ends with
`inputString` holding exactly the first `MAX_INPUT_LENGTH` characters in order and
`inputIndex = MAX_INPUT_LENGTH`; the session is already that after every prefix of at least
`MAX_INPUT_LENGTH` characters, so every later character leaves it unchanged; and there is
no transport write and no interpreter invocation. -/
theorem C6_overlong_input_truncated {σ : Type} (I : Interpreter σ) (fuel : Nat) (cli : σ)
    (out cs : List Nat) (hlen : MAX_INPUT_LENGTH < cs.length)
    (hc : ∀ c ∈ cs, c ≠ 10 ∧ c ≠ 13 ∧ c ≠ 8) :
    ∃ m, cliTask I fuel (Machine.init cli out) cs = some m ∧
      m.session.inputString = cs.take MAX_INPUT_LENGTH ∧
      m.session.inputIndex = MAX_INPUT_LENGTH ∧
      calls m.trace = [] ∧ uartWrites m.trace = [] ∧
      ∀ k, MAX_INPUT_LENGTH ≤ k →
        ∃ mk, cliTask I fuel (Machine.init cli out) (cs.take k) = some mk ∧
          mk.session = m.session := by
  have hfull : (cs.take MAX_INPUT_LENGTH).length = MAX_INPUT_LENGTH := by
    simp; omega
  obtain ⟨m, hm, hs, hcalls, hw⟩ := plain_run I fuel cli out cs hc
  rw [sessionOf_full _ hfull] at hs
  refine ⟨m, hm, by rw [hs], by rw [hs], hcalls, hw, ?_⟩
  intro k hk
  obtain ⟨mk, hmk, hsk, -, -⟩ := plain_run I fuel cli out (cs.take k)
    (fun c h => hc c (List.mem_of_mem_take h))
  refine ⟨mk, hmk, ?_⟩
  rw [hsk, hs, List.take_take, Nat.min_eq_left hk, sessionOf_full _ hfull]

/-- Witness of C6: fifty-two characters `a`. -/
theorem C6_overlong_input_truncated_witness :
    MAX_INPUT_LENGTH < (List.replicate 52 97).length ∧
      (∀ c ∈ List.replicate 52 97, c ≠ 10 ∧ c ≠ 13 ∧ c ≠ 8) ∧
      ∃ m, cliTask quietInterpreter 0 (Machine.init () [0]) (List.replicate 52 97) = some m ∧
        m.session.inputString = (List.replicate 52 97).take MAX_INPUT_LENGTH ∧
        m.session.inputIndex = MAX_INPUT_LENGTH ∧
        calls m.trace = [] ∧ uartWrites m.trace = [] ∧
        ∀ k, MAX_INPUT_LENGTH ≤ k →
          ∃ mk, cliTask quietInterpreter 0 (Machine.init () [0])
              ((List.replicate 52 97).take k) = some mk ∧
            mk.session = m.session :=
  ⟨by decide, by decide,
    C6_overlong_input_truncated quietInterpreter 0 () [0] (List.replicate 52 97) (by decide)
      (by decide)⟩

/-! ### C7 -/

theorem memset_full (buf : List Nat) (h : buf.length = MAX_INPUT_LENGTH) :
    memset buf 0 MAX_INPUT_LENGTH = List.replicate MAX_INPUT_LENGTH 0 := by
  unfold memset
  rw [List.drop_of_length_le (by omega), h]
  simp

/-- C7: for every session state (the array `inputString` being `MAX_INPUT_LENGTH` bytes
long) and every interpreter that returns `pdFALSE` on its `n`-th invocation, the newline
branch completes and leaves the initial session: `inputIndex` is `0` and all
`MAX_INPUT_LENGTH` bytes of `inputString` are zero, whatever the buffer held before. -/
theorem C7_session_reset_after_dispatch {σ : Type} (I : Interpreter σ) (fuel n : Nat)
    (m : Machine σ) (hlen : m.session.inputString.length = MAX_INPUT_LENGTH)
    (hn : returnsFalseAt I m.session.inputString n m.cli m.outputString = true)
    (hf : n ≤ fuel) :
    ∃ m1, cliStep I fuel m 10 = some m1 ∧ m1.session = Session.init ∧
      m1.session.inputIndex = 0 ∧
      m1.session.inputString = List.replicate MAX_INPUT_LENGTH 0 := by
  refine ⟨dispatched I n m, cliStep_newline I fuel n m hn hf, ?_, rfl, ?_⟩
  · simp [dispatched, Session.init, memset_full _ hlen]
  · simp [dispatched, memset_full _ hlen]

/-- Witness of C7: the buffer holds `"ac"`, the interpreter returns `pdFALSE` at once. -/
theorem C7_session_reset_after_dispatch_witness :
    machineAc.session.inputString.length = MAX_INPUT_LENGTH ∧
      returnsFalseAt quietInterpreter machineAc.session.inputString 1 machineAc.cli
        machineAc.outputString = true ∧
      1 ≤ 2 ∧
      ∃ m1, cliStep quietInterpreter 2 machineAc 10 = some m1 ∧ m1.session = Session.init ∧
        m1.session.inputIndex = 0 ∧
        m1.session.inputString = List.replicate MAX_INPUT_LENGTH 0 :=
  ⟨by decide, by decide, by decide,
    C7_session_reset_after_dispatch quietInterpreter 2 1 machineAc (by decide) (by decide)
      (by decide)⟩

/-! ### C8 -/

/-- C8: during the dispatch of one line every invocation of the interpreter is handed the
same `inputString` content, the one present when the newline arrived: the events of the
newline branch are the receipt of the newline, then `n` invocations and transport writes
and nothing else (no store into `inputString`, no receipt of a further character), then
the clearing of the buffer. -/
theorem C8_same_line_on_every_invocation {σ : Type} (I : Interpreter σ) (fuel n : Nat)
    (m : Machine σ)
    (hn : returnsFalseAt I m.session.inputString n m.cli m.outputString = true)
    (hf : n ≤ fuel) :
    ∃ m1 evs, cliStep I fuel m 10 = some m1 ∧
      m1.trace = m.trace ++ [Event.recv 10] ++ evs ++ memsetEvents 0 MAX_INPUT_LENGTH ∧
      (calls evs).length = n ∧
      (∀ c ∈ calls evs, c.1 = m.session.inputString ∧
        lineText c.1 = lineText m.session.inputString) ∧
      ∀ e ∈ evs, (∃ o, e = Event.call m.session.inputString o) ∨ ∃ b, e = Event.uartWrite b := by
  refine ⟨dispatched I n m, invocationEvents I m.session.inputString n m.cli m.outputString,
    cliStep_newline I fuel n m hn hf, rfl, ?_, ?_, invocationEvents_mem I _ n _ _⟩
  · simp [calls_invocationEvents]
  · intro c hc
    simp only [calls_invocationEvents, List.mem_map, List.mem_range] at hc
    obtain ⟨k, -, rfl⟩ := hc
    exact ⟨rfl, rfl⟩

/-- Witness of C8: an interpreter that needs three invocations, on an empty line. -/
theorem C8_same_line_on_every_invocation_witness :
    returnsFalseAt countingInterpreter (Machine.init 0 [0, 0, 0, 0]).session.inputString 3
        (Machine.init 0 [0, 0, 0, 0]).cli (Machine.init 0 [0, 0, 0, 0]).outputString = true ∧
      3 ≤ 3 ∧
      ∃ m1 evs, cliStep countingInterpreter 3 (Machine.init 0 [0, 0, 0, 0]) 10 = some m1 ∧
        m1.trace = (Machine.init 0 [0, 0, 0, 0]).trace ++ [Event.recv 10] ++ evs ++
          memsetEvents 0 MAX_INPUT_LENGTH ∧
        (calls evs).length = 3 ∧
        (∀ c ∈ calls evs, c.1 = (Machine.init 0 [0, 0, 0, 0]).session.inputString ∧
          lineText c.1 = lineText (Machine.init 0 [0, 0, 0, 0]).session.inputString) ∧
        ∀ e ∈ evs, (∃ o, e = Event.call (Machine.init 0 [0, 0, 0, 0]).session.inputString o) ∨
          ∃ b, e = Event.uartWrite b :=
  ⟨by decide, by decide,
    C8_same_line_on_every_invocation countingInterpreter 3 3 (Machine.init 0 [0, 0, 0, 0])
      (by decide) (by decide)⟩

/-! ### C9 -/

theorem specProcessCommand_empty {σ : Type} (registry : List (CommandEntry σ))
    (unknownMessage : List Nat) (st : σ) (out : List Nat) (cap : Nat) :
    specProcessCommand registry unknownMessage st (bufferOf []) out cap =
      (st, writeOutput out [] cap, false) := by
  have ht : tokens (cString (bufferOf [])) = [] := by decide
  simp only [specProcessCommand, ht]

theorem cString_writeOutput_nil (out : List Nat) (cap : Nat) :
    cString (writeOutput out [] cap) = [] := by
  simp [writeOutput, cString, strlen]

/-- C9: with the command processor of the specification, a newline received while the
buffer is empty (in any state reached from the initial session) is dispatched in one
invocation whose chunk is empty, so that the one transport write of the newline branch
carries no byte and the byte stream forwarded to the transport is unchanged, and the
session is the initial, empty one afterwards. -/
theorem C9_empty_line_sends_nothing {σ : Type} (registry : List (CommandEntry σ))
    (unknownMessage : List Nat) (cap fuel0 fuel : Nat) (cli : σ) (out cs : List Nat)
    (m : Machine σ)
    (hm : cliTask (specInterpreter registry unknownMessage cap) fuel0 (Machine.init cli out) cs
      = some m)
    (h0 : m.session.inputIndex = 0) (hf : 1 ≤ fuel) :
    ∃ m1, cliStep (specInterpreter registry unknownMessage cap) fuel m 10 = some m1 ∧
      m1.session = Session.init ∧
      (calls m1.trace).length = (calls m.trace).length + 1 ∧
      uartWrites m1.trace = uartWrites m.trace ++ [[]] ∧
      sentBytes m1.trace = sentBytes m.trace := by
  obtain ⟨kept, hk, hs⟩ := reachable_session _ fuel0 cli out cs m hm
  have hnil : kept = [] := by
    rw [hs] at h0
    exact List.length_eq_zero.mp h0
  subst hnil
  have hbuf : m.session.inputString = bufferOf [] := by rw [hs]; rfl
  have hn : returnsFalseAt (specInterpreter registry unknownMessage cap) m.session.inputString 1
      m.cli m.outputString = true := by
    simp [returnsFalseAt, specInterpreter, hbuf, specProcessCommand_empty]
  have hw : uartWrites (dispatched (specInterpreter registry unknownMessage cap) 1 m).trace =
      uartWrites m.trace ++ [[]] := by
    have hr : List.range 1 = [0] := rfl
    rw [uartWrites_dispatched, hr]
    simp [afterCalls, specInterpreter, hbuf, specProcessCommand_empty, cString_writeOutput_nil]
  refine ⟨dispatched (specInterpreter registry unknownMessage cap) 1 m,
    cliStep_newline _ fuel 1 m hn hf, ?_, ?_, hw, ?_⟩
  · simp only [dispatched, hbuf]
    rw [memset_bufferOf [] (by simp), ← sessionOf_nil]
    rfl
  · simp [calls_dispatched]
  · simp [sentBytes, hw]

/-- Witness of C9: the buffer was emptied by a backspace before the newline. -/
theorem C9_empty_line_sends_nothing_witness :
    cliTask (specInterpreter ([] : List (CommandEntry Unit)) [63] 2) 0
        (Machine.init () [0, 0]) [97, 8] = some machineEmptied ∧
      machineEmptied.session.inputIndex = 0 ∧ 1 ≤ 1 ∧
      ∃ m1, cliStep (specInterpreter ([] : List (CommandEntry Unit)) [63] 2) 1
          machineEmptied 10 = some m1 ∧
        m1.session = Session.init ∧
        (calls m1.trace).length = (calls machineEmptied.trace).length + 1 ∧
        uartWrites m1.trace = uartWrites machineEmptied.trace ++ [[]] ∧
        sentBytes m1.trace = sentBytes machineEmptied.trace :=
  ⟨by rfl, by decide, by decide,
    C9_empty_line_sends_nothing ([] : List (CommandEntry Unit)) [63] 2 0 1 () [0, 0] [97, 8]
      machineEmptied (by rfl) (by decide) (by decide)⟩

/-! ### C10 -/

/-- C10 as stated fails: with an interpreter that writes `"hi"` on its first invocation
and nothing on its second, the second invocation is handed an output buffer that still
holds `"hi"`, and the chunk written to the transport after it is that left-over `"hi"`. -/
theorem C10_stale_chunk_is_written_again :
    (cliTask stickyInterpreter 2 (Machine.init 0 [0, 0, 0, 0]) [10]).map
        (fun m => (calls m.trace, uartWrites m.trace)) =
      some ([(bufferOf [], [0, 0, 0, 0]), (bufferOf [], [104, 105, 0, 0])],
        [[104, 105], [104, 105]]) := by
  decide

/-- C10, amended: the newline branch never clears the output buffer. The first invocation
for a line is handed the output buffer as it is when the newline arrives, every repeated
invocation is handed it exactly as the invocation before left it, the chunk written to the
transport after an invocation is the string found in the buffer after that invocation, and
the buffer is kept as the last invocation left it. -/
theorem C10_output_buffer_carried_over {σ : Type} (I : Interpreter σ) (fuel n : Nat)
    (m : Machine σ)
    (hn : returnsFalseAt I m.session.inputString n m.cli m.outputString = true)
    (hf : n ≤ fuel) :
    ∃ m1, cliStep I fuel m 10 = some m1 ∧
      calls m1.trace = calls m.trace ++ (List.range n).map (fun k =>
        (m.session.inputString,
          (afterCalls I m.session.inputString k m.cli m.outputString).2)) ∧
      uartWrites m1.trace = uartWrites m.trace ++ (List.range n).map (fun k =>
        cString (afterCalls I m.session.inputString (k + 1) m.cli m.outputString).2) ∧
      m1.outputString = (afterCalls I m.session.inputString n m.cli m.outputString).2 :=
  ⟨dispatched I n m, cliStep_newline I fuel n m hn hf, calls_dispatched I n m,
    uartWrites_dispatched I n m, rfl⟩

/-- Witness of C10, amended: the interpreter that writes `"hi"` once, on an empty line. -/
theorem C10_output_buffer_carried_over_witness :
    returnsFalseAt stickyInterpreter (Machine.init 0 [0, 0, 0, 0]).session.inputString 2
        (Machine.init 0 [0, 0, 0, 0]).cli (Machine.init 0 [0, 0, 0, 0]).outputString = true ∧
      2 ≤ 2 ∧
      ∃ m1, cliStep stickyInterpreter 2 (Machine.init 0 [0, 0, 0, 0]) 10 = some m1 ∧
        calls m1.trace = calls (Machine.init 0 [0, 0, 0, 0]).trace ++
          (List.range 2).map (fun k =>
            ((Machine.init 0 [0, 0, 0, 0]).session.inputString,
              (afterCalls stickyInterpreter (Machine.init 0 [0, 0, 0, 0]).session.inputString k
                (Machine.init 0 [0, 0, 0, 0]).cli
                (Machine.init 0 [0, 0, 0, 0]).outputString).2)) ∧
        uartWrites m1.trace = uartWrites (Machine.init 0 [0, 0, 0, 0]).trace ++
          (List.range 2).map (fun k =>
            cString (afterCalls stickyInterpreter
              (Machine.init 0 [0, 0, 0, 0]).session.inputString (k + 1)
              (Machine.init 0 [0, 0, 0, 0]).cli (Machine.init 0 [0, 0, 0, 0]).outputString).2) ∧
        m1.outputString = (afterCalls stickyInterpreter
          (Machine.init 0 [0, 0, 0, 0]).session.inputString 2
          (Machine.init 0 [0, 0, 0, 0]).cli (Machine.init 0 [0, 0, 0, 0]).outputString).2 :=
  ⟨by decide, by decide,
    C10_output_buffer_carried_over stickyInterpreter 2 2 (Machine.init 0 [0, 0, 0, 0])
      (by decide) (by decide)⟩

/-! ### C11 -/

/-- C11: for every machine whose `inputIndex` is `0`, receiving a backspace leaves the
session (`inputString` and `inputIndex`) as it was; the output buffer and the interpreter
are untouched and the only event is the receipt of the character, so there is no transport
write, no interpreter invocation and no store. -/
theorem C11_backspace_on_empty_buffer {σ : Type} (I : Interpreter σ) (fuel : Nat)
    (m : Machine σ) (h0 : m.session.inputIndex = 0) :
    ∃ m1, cliStep I fuel m 8 = some m1 ∧ m1.session = m.session ∧
      m1.outputString = m.outputString ∧ m1.cli = m.cli ∧
      m1.trace = m.trace ++ [Event.recv 8] ∧
      uartWrites m1.trace = uartWrites m.trace ∧ calls m1.trace = calls m.trace := by
  have hstep : editStep m.session 8 = (m.session, []) := by
    simp [editStep, h0]
  have hr1 : uartWrites [Event.recv 8] = [] := rfl
  have hr2 : calls [Event.recv 8] = [] := rfl
  refine ⟨_, cliStep_edit I fuel m 8 (by decide), ?_, rfl, rfl, ?_, ?_, ?_⟩
  · simp only [hstep]
  · simp only [hstep]
  · simp only [hstep, uartWrites_append, hr1, List.append_nil]
  · simp only [hstep, calls_append, hr2, List.append_nil]

/-- Witness of C11: a backspace as the first character received. -/
theorem C11_backspace_on_empty_buffer_witness :
    (Machine.init () [0] : Machine Unit).session.inputIndex = 0 ∧
      ∃ m1, cliStep quietInterpreter 0 (Machine.init () [0]) 8 = some m1 ∧
        m1.session = (Machine.init () [0] : Machine Unit).session ∧
        m1.outputString = (Machine.init () [0] : Machine Unit).outputString ∧
        m1.cli = (Machine.init () [0] : Machine Unit).cli ∧
        m1.trace = (Machine.init () [0] : Machine Unit).trace ++ [Event.recv 8] ∧
        uartWrites m1.trace = uartWrites (Machine.init () [0] : Machine Unit).trace ∧
        calls m1.trace = calls (Machine.init () [0] : Machine Unit).trace :=
  ⟨by decide, C11_backspace_on_empty_buffer quietInterpreter 0 (Machine.init () [0]) (by decide)⟩

/-! ### C12 -/

/-- C12: for every machine whose `inputIndex` is positive (and, as in every state of the
loop, at most `MAX_INPUT_LENGTH`, with `inputString` of `MAX_INPUT_LENGTH` bytes), receiving
a backspace decrements `inputIndex` by exactly one, sets the vacated slot
`inputString[new inputIndex]` to NUL and leaves every other byte of `inputString` as it
was; the one store made is the one into the vacated slot. -/
theorem C12_backspace_erases_last {σ : Type} (I : Interpreter σ) (fuel : Nat) (m : Machine σ)
    (hpos : 0 < m.session.inputIndex) (hle : m.session.inputIndex ≤ MAX_INPUT_LENGTH)
    (hlen : m.session.inputString.length = MAX_INPUT_LENGTH) :
    ∃ m1, cliStep I fuel m 8 = some m1 ∧
      m1.session.inputIndex + 1 = m.session.inputIndex ∧
      m1.session.inputString.length = MAX_INPUT_LENGTH ∧
      m1.session.inputString[m1.session.inputIndex]? = some 0 ∧
      (∀ j, j ≠ m1.session.inputIndex →
        m1.session.inputString[j]? = m.session.inputString[j]?) ∧
      m1.trace = m.trace ++ [Event.recv 8, Event.store m1.session.inputIndex 0] := by
  have hle50 : m.session.inputIndex ≤ 50 := hle
  have hi : (m.session.inputIndex + 255) % 256 = m.session.inputIndex - 1 := by omega
  have hstep : editStep m.session 8 =
      (⟨m.session.inputString.set (m.session.inputIndex - 1) 0, m.session.inputIndex - 1⟩,
        [Event.store (m.session.inputIndex - 1) 0]) := by
    simp [editStep, hpos, hi]
  refine ⟨_, cliStep_edit I fuel m 8 (by decide), ?_, ?_, ?_, ?_, ?_⟩
  · simp only [hstep]; omega
  · simp only [hstep, List.length_set]; exact hlen
  · simp only [hstep]
    rw [List.getElem?_set_self (by rw [hlen]; show m.session.inputIndex - 1 < 50; omega)]
  · intro j hj
    simp only [hstep] at hj ⊢
    rw [List.getElem?_set_ne (Ne.symm hj)]
  · simp only [hstep]

/-- Witness of C12: a backspace received when the buffer holds `"ac"`. -/
theorem C12_backspace_erases_last_witness :
    0 < machineAc.session.inputIndex ∧ machineAc.session.inputIndex ≤ MAX_INPUT_LENGTH ∧
      machineAc.session.inputString.length = MAX_INPUT_LENGTH ∧
      ∃ m1, cliStep quietInterpreter 0 machineAc 8 = some m1 ∧
        m1.session.inputIndex + 1 = machineAc.session.inputIndex ∧
        m1.session.inputString.length = MAX_INPUT_LENGTH ∧
        m1.session.inputString[m1.session.inputIndex]? = some 0 ∧
        (∀ j, j ≠ m1.session.inputIndex →
          m1.session.inputString[j]? = machineAc.session.inputString[j]?) ∧
        m1.trace = machineAc.trace ++ [Event.recv 8, Event.store m1.session.inputIndex 0] :=
  ⟨by decide, by decide, by decide,
    C12_backspace_erases_last quietInterpreter 0 machineAc (by decide) (by decide) (by decide)⟩

/-! ### C13 -/

/-- C13: for every machine, receiving a carriage return changes nothing: the session
(`inputString` and `inputIndex`), the output buffer and the interpreter are as before and
the only event is the receipt of the character, so nothing is written to the transport and
the command processor is not invoked. -/
theorem C13_carriage_return_ignored {σ : Type} (I : Interpreter σ) (fuel : Nat)
    (m : Machine σ) :
    ∃ m1, cliStep I fuel m 13 = some m1 ∧ m1.session = m.session ∧
      m1.outputString = m.outputString ∧ m1.cli = m.cli ∧
      m1.trace = m.trace ++ [Event.recv 13] ∧
      uartWrites m1.trace = uartWrites m.trace ∧ calls m1.trace = calls m.trace := by
  have hstep : editStep m.session 13 = (m.session, []) := by
    simp [editStep]
  have hr1 : uartWrites [Event.recv 13] = [] := rfl
  have hr2 : calls [Event.recv 13] = [] := rfl
  refine ⟨_, cliStep_edit I fuel m 13 (by decide), ?_, rfl, rfl, ?_, ?_, ?_⟩
  · simp only [hstep]
  · simp only [hstep]
  · simp only [hstep, uartWrites_append, hr1, List.append_nil]
  · simp only [hstep, calls_append, hr2, List.append_nil]

/-! ### C16 -/

theorem padded_sessionOf (kept : List Nat) (h : kept.length ≤ MAX_INPUT_LENGTH) :
    Padded (sessionOf kept) := by
  refine ⟨bufferOf_length kept h, h, ?_⟩
  intro j hj hij
  have hij2 : kept.length ≤ j := hij
  simp only [sessionOf, bufferOf]
  rw [List.getElem?_append_right hij2, List.getElem?_replicate, if_pos (by omega)]

theorem sessionOf_of_padded (s : Session) (h : Padded s) :
    s = sessionOf (s.inputString.take s.inputIndex) := by
  obtain ⟨hlen, hle, hpad⟩ := h
  cases s with
  | mk l i =>
    simp only at hlen hle hpad
    have htl : (l.take i).length = i := by simp; omega
    simp only [sessionOf, bufferOf, htl, Session.mk.injEq, and_true]
    apply List.ext_getElem?
    intro j
    by_cases hji : j < i
    · rw [List.getElem?_append_left (by omega), List.getElem?_take_of_lt hji]
    · rw [List.getElem?_append_right (by omega), List.getElem?_replicate, htl]
      by_cases hj : j < MAX_INPUT_LENGTH
      · rw [if_pos (by omega)]
        exact hpad j hj (by omega)
      · rw [if_neg (by omega)]
        exact List.getElem?_eq_none (by omega)

theorem takeWhile_append_zero (k rest : List Nat) :
    (k ++ 0 :: rest).takeWhile (fun b => b != 0) = k.takeWhile (fun b => b != 0) := by
  induction k with
  | nil => simp
  | cons a k ih =>
    simp only [List.cons_append, List.takeWhile_cons, ih]

theorem cString_eq_takeWhile (s : List Nat) : cString s = s.takeWhile (fun b => b != 0) := by
  unfold cString strlen
  induction s with
  | nil => rfl
  | cons a s ih =>
    simp only [List.takeWhile_cons]
    split
    · simp only [List.length_cons, List.take_succ_cons, ih]
    · simp only [List.length_nil, List.take_zero]

theorem cString_bufferOf (kept : List Nat) (hlt : kept.length < MAX_INPUT_LENGTH) :
    lineText (bufferOf kept) = some (kept.takeWhile (fun b => b != 0)) := by
  obtain ⟨k, hk⟩ : ∃ k, MAX_INPUT_LENGTH - kept.length = k + 1 :=
    ⟨MAX_INPUT_LENGTH - kept.length - 1, by omega⟩
  have hb : bufferOf kept = kept ++ 0 :: List.replicate k 0 := by
    simp [bufferOf, hk, List.replicate_succ]
  rw [hb]
  simp [lineText, cString_eq_takeWhile, takeWhile_append_zero]

/-- C16: the initial session is zero padded, and every run of the loop that starts in a
zero-padded session (so every run from the initial session, and every single append,
backspace or dispatch step) ends in a zero-padded session: `inputString` is
`MAX_INPUT_LENGTH` bytes long, `inputIndex` is at most `MAX_INPUT_LENGTH`, and every byte at
an index from `inputIndex` on is NUL. Whenever `inputIndex` is below `MAX_INPUT_LENGTH` the
array therefore holds a NUL-terminated string, of length at most `inputIndex`. -/
theorem C16_zero_padding_invariant {σ : Type} (I : Interpreter σ) (fuel : Nat)
    (m0 m : Machine σ) (cs : List Nat) (hp : Padded m0.session)
    (hm : cliTask I fuel m0 cs = some m) :
    Padded Session.init ∧ Padded m.session ∧
      (m.session.inputIndex < MAX_INPUT_LENGTH →
        ∃ t, lineText m.session.inputString = some t ∧ t.length ≤ m.session.inputIndex) := by
  have h0 := sessionOf_of_padded m0.session hp
  have hk0 : (m0.session.inputString.take m0.session.inputIndex).length ≤ MAX_INPUT_LENGTH := by
    have := hp.2.1
    simp only [List.length_take]
    omega
  have hs := cliTask_session I fuel cs m0 m _ h0 hk0 hm
  have hk := foldl_keepChar_length_le cs _ hk0
  refine ⟨sessionOf_nil ▸ padded_sessionOf [] (by simp), ?_, ?_⟩
  · rw [hs]; exact padded_sessionOf _ hk
  · intro hlt
    rw [hs] at hlt ⊢
    refine ⟨_, cString_bufferOf _ hlt, ?_⟩
    exact (List.takeWhile_sublist _).length_le

/-- Witness of C16: the run `a LF b` from the initial session. -/
theorem C16_zero_padding_invariant_witness :
    Padded (Machine.init () [0] : Machine Unit).session ∧
      cliTask quietInterpreter 1 (Machine.init () [0]) [97, 10, 98] = some machineB ∧
      Padded Session.init ∧ Padded machineB.session ∧
      (machineB.session.inputIndex < MAX_INPUT_LENGTH →
        ∃ t, lineText machineB.session.inputString = some t ∧
          t.length ≤ machineB.session.inputIndex) :=
  ⟨by decide, by rfl,
    C16_zero_padding_invariant quietInterpreter 1 (Machine.init () [0]) machineB [97, 10, 98]
      (by decide) (by rfl)⟩

/-! ### C17 -/

set_option maxRecDepth 100000 in
/-- C17: for every machine with `inputIndex` below `MAX_INPUT_LENGTH` (and `inputString` of
`MAX_INPUT_LENGTH` bytes) and every received byte other than newline, carriage return and
backspace, printable or not, the byte is stored at `inputString[inputIndex]` and
`inputIndex` is incremented by one. In particular a NUL byte is stored and counted: after
the characters `a b NUL c d` five characters have been accepted, and on the following
newline the line the command processor reads is `"ab"`, of length two. -/
theorem C17_every_byte_is_appended {σ : Type} (I : Interpreter σ) (fuel : Nat) (m : Machine σ)
    (c : Nat) (h10 : c ≠ 10) (h13 : c ≠ 13) (h8 : c ≠ 8)
    (hlt : m.session.inputIndex < MAX_INPUT_LENGTH)
    (hlen : m.session.inputString.length = MAX_INPUT_LENGTH) :
    (∃ m1, cliStep I fuel m c = some m1 ∧
      m1.session.inputIndex = m.session.inputIndex + 1 ∧
      m1.session.inputString = m.session.inputString.set m.session.inputIndex c ∧
      m1.session.inputString[m.session.inputIndex]? = some c ∧
      m1.trace = m.trace ++ [Event.recv c, Event.store m.session.inputIndex c]) ∧
    (cliTask quietInterpreter 1 (Machine.init () [0]) [97, 98, 0, 99, 100]).map
        (fun m => (m.session.inputIndex, m.session.inputString.take m.session.inputIndex)) =
        some (5, [97, 98, 0, 99, 100]) ∧
    (cliTask quietInterpreter 1 (Machine.init () [0]) [97, 98, 0, 99, 100, 10]).map
        (fun m => (calls m.trace).map (fun c => (lineText c.1, (cString c.1).length))) =
        some [(some [97, 98], 2)] := by
  have hlt50 : m.session.inputIndex < 50 := hlt
  have hi : (m.session.inputIndex + 1) % 256 = m.session.inputIndex + 1 := by omega
  have hstep : editStep m.session c =
      (⟨m.session.inputString.set m.session.inputIndex c, m.session.inputIndex + 1⟩,
        [Event.store m.session.inputIndex c]) := by
    simp [editStep, h13, h8, hlt, hi]
  refine ⟨⟨_, cliStep_edit I fuel m c h10, ?_, ?_, ?_, ?_⟩, by decide, by decide⟩
  · simp only [hstep]
  · simp only [hstep]
  · simp only [hstep]
    rw [List.getElem?_set_self (by rw [hlen]; exact hlt)]
  · simp only [hstep]

set_option maxRecDepth 100000 in
/-- Witness of C17: a NUL byte as the first character received. -/
theorem C17_every_byte_is_appended_witness :
    (0 : Nat) ≠ 10 ∧ (0 : Nat) ≠ 13 ∧ (0 : Nat) ≠ 8 ∧
      (Machine.init () [0] : Machine Unit).session.inputIndex < MAX_INPUT_LENGTH ∧
      (Machine.init () [0] : Machine Unit).session.inputString.length = MAX_INPUT_LENGTH ∧
      (∃ m1, cliStep quietInterpreter 0 (Machine.init () [0]) 0 = some m1 ∧
        m1.session.inputIndex = (Machine.init () [0] : Machine Unit).session.inputIndex + 1 ∧
        m1.session.inputString =
          (Machine.init () [0] : Machine Unit).session.inputString.set
            (Machine.init () [0] : Machine Unit).session.inputIndex 0 ∧
        m1.session.inputString[(Machine.init () [0] : Machine Unit).session.inputIndex]? =
          some 0 ∧
        m1.trace = (Machine.init () [0] : Machine Unit).trace ++
          [Event.recv 0, Event.store (Machine.init () [0] : Machine Unit).session.inputIndex 0]) ∧
      (cliTask quietInterpreter 1 (Machine.init () [0]) [97, 98, 0, 99, 100]).map
          (fun m => (m.session.inputIndex, m.session.inputString.take m.session.inputIndex)) =
          some (5, [97, 98, 0, 99, 100]) ∧
      (cliTask quietInterpreter 1 (Machine.init () [0]) [97, 98, 0, 99, 100, 10]).map
          (fun m => (calls m.trace).map (fun c => (lineText c.1, (cString c.1).length))) =
          some [(some [97, 98], 2)] :=
  ⟨by decide, by decide, by decide, by decide, by decide,
    C17_every_byte_is_appended quietInterpreter 0 (Machine.init () [0]) 0 (by decide)
      (by decide) (by decide) (by decide) (by decide)⟩

/-! ### C15 -/

theorem resolve_none {σ : Type} (registry : List (CommandEntry σ)) (t : List Nat)
    (h : ∀ e ∈ registry, e.name ≠ t) : resolve registry t = none := by
  simp only [resolve, List.find?_eq_none, beq_iff_eq]
  exact h

theorem cString_writeOutput (out text : List Nat) (cap : Nat) (h0 : 0 ∉ text)
    (hfit : text.length < cap) : cString (writeOutput out text cap) = text := by
  have ht : text.take (cap - 1) = text := List.take_of_length_le (by omega)
  simp only [writeOutput, ht]
  exact cString_append_zero text _ h0

set_option maxRecDepth 100000 in
/-- C15 as stated fails: with only the command `led` registered, after the characters
`l e d NUL x` the buffer holds the five bytes `l e d NUL x`, whose only token is not a
registered name, but the string the command processor reads from `inputString` on the
following newline is `"led"`: the one chunk written to the transport is the answer `"on"`
of the handler of `led` and not the unknown-command message `"??"`. -/
theorem C15_nul_byte_hides_first_token :
    (cliTask (specInterpreter ledRegistry [63, 63] 4) 1 (Machine.init () [0, 0, 0, 0])
        [108, 101, 100, 0, 120]).map
        (fun m => (m.session.inputString.take m.session.inputIndex,
          tokens (m.session.inputString.take m.session.inputIndex),
          (resolve ledRegistry [108, 101, 100, 0, 120]).isNone)) =
        some ([108, 101, 100, 0, 120], [[108, 101, 100, 0, 120]], true) ∧
      (cliTask (specInterpreter ledRegistry [63, 63] 4) 1 (Machine.init () [0, 0, 0, 0])
        [108, 101, 100, 0, 120, 10]).map
        (fun m => ((calls m.trace).map (fun c => lineText c.1), uartWrites m.trace)) =
        some ([some [108, 101, 100]], [[111, 110]]) := by
  decide

/-- C15, amended: with the command processor of the specification, a newline received when
`inputString` holds a NUL-terminated line whose first token, as the processor reads it, is
not the name of a registered command is dispatched in exactly one invocation, the one
transport write of the newline branch is the fixed unknown-command message (a text without
NUL that fits the output buffer), the state of the handlers is untouched, and the session
is the initial, empty one afterwards. -/
theorem C15_unknown_command_one_chunk {σ : Type} (registry : List (CommandEntry σ))
    (unknownMessage : List Nat) (cap fuel : Nat) (m : Machine σ) (line t : List Nat)
    (rest : List (List Nat))
    (hlen : m.session.inputString.length = MAX_INPUT_LENGTH)
    (hline : lineText m.session.inputString = some line)
    (htok : tokens line = t :: rest)
    (hunk : ∀ e ∈ registry, e.name ≠ t)
    (hmsg : 0 ∉ unknownMessage) (hfit : unknownMessage.length < cap) (hf : 1 ≤ fuel) :
    ∃ m1, cliStep (specInterpreter registry unknownMessage cap) fuel m 10 = some m1 ∧
      m1.session = Session.init ∧
      (calls m1.trace).length = (calls m.trace).length + 1 ∧
      uartWrites m1.trace = uartWrites m.trace ++ [unknownMessage] ∧
      m1.cli = m.cli := by
  have hcs : cString m.session.inputString = line := by
    unfold lineText at hline
    split at hline
    · exact Option.some.inj hline
    · exact absurd hline (by simp)
  have hproc : specProcessCommand registry unknownMessage m.cli m.session.inputString
      m.outputString cap = (m.cli, writeOutput m.outputString unknownMessage cap, false) := by
    simp only [specProcessCommand, hcs, htok, resolve_none registry t hunk]
  have hn : returnsFalseAt (specInterpreter registry unknownMessage cap) m.session.inputString 1
      m.cli m.outputString = true := by
    simp [returnsFalseAt, specInterpreter, hproc]
  have hr : List.range 1 = [0] := rfl
  refine ⟨dispatched (specInterpreter registry unknownMessage cap) 1 m,
    cliStep_newline _ fuel 1 m hn hf, ?_, ?_, ?_, ?_⟩
  · simp [dispatched, Session.init, memset_full _ hlen]
  · simp [calls_dispatched]
  · rw [uartWrites_dispatched, hr]
    simp [afterCalls, specInterpreter, hproc, cString_writeOutput _ _ _ hmsg hfit]
  · simp [dispatched, afterCalls, specInterpreter, hproc]

/-- Witness of C15, amended: the line `xyz` with only the command `led` registered. -/
theorem C15_unknown_command_one_chunk_witness :
    cliTask (specInterpreter ledRegistry [63, 63] 4) 0 (Machine.init () [0, 0, 0, 0])
        [120, 121, 122] = some machineXyz ∧
      machineXyz.session.inputString.length = MAX_INPUT_LENGTH ∧
      lineText machineXyz.session.inputString = some [120, 121, 122] ∧
      tokens [120, 121, 122] = [120, 121, 122] :: [] ∧
      (∀ e ∈ ledRegistry, e.name ≠ [120, 121, 122]) ∧
      0 ∉ [63, 63] ∧ [63, 63].length < 4 ∧ 1 ≤ 1 ∧
      ∃ m1, cliStep (specInterpreter ledRegistry [63, 63] 4) 1 machineXyz 10 = some m1 ∧
        m1.session = Session.init ∧
        (calls m1.trace).length = (calls machineXyz.trace).length + 1 ∧
        uartWrites m1.trace = uartWrites machineXyz.trace ++ [[63, 63]] ∧
        m1.cli = machineXyz.cli :=
  ⟨by rfl, by decide, by decide, by decide, by decide, by decide, by decide, by decide,
    C15_unknown_command_one_chunk ledRegistry [63, 63] 4 1 machineXyz [120, 121, 122]
      [120, 121, 122] [] (by decide) (by decide) (by decide) (by decide) (by decide)
      (by decide) (by decide)⟩

/-! ### C14 -/

end CliTask
